import Mathlib

/-!
Shallow embedding of the ratlog log-engine core (src/logs.rs, src/app.rs,
src/constants.rs).  Bytes are modelled as `Nat` (values < 256 in practice),
decoded text as lists of Unicode scalar values (`Nat`).  Fallible or
panicking code paths are modelled with `Option`.
-/

set_option maxHeartbeats 2000000
set_option maxRecDepth 16384

namespace Ratlog

/-- `MAX_LINES` from src/constants.rs. -/
def MAX_LINES : Nat := 150

/-- `MAX_LINE_LEN` from src/constants.rs (64 KiB). -/
def MAX_LINE_LEN : Nat := 64 * 1024

/-- `POLL_READ_CAP` from src/constants.rs (512 KiB). -/
def POLL_READ_CAP : Nat := 512 * 1024

/-- `TAIL_READ_SIZE` from src/constants.rs (2 MiB). -/
def TAIL_READ_SIZE : Nat := 2 * 1024 * 1024

/-- Rust `str::split('\n')` / `[u8]::split(|b| b == b'\n')`: split a sequence
at every newline (10), keeping empty segments; always returns at least one
segment. -/
def splitNl : List Nat → List (List Nat)
  | [] => [[]]
  | b :: rest =>
    if b = 10 then [] :: splitNl rest
    else
      match splitNl rest with
      | [] => [[b]]
      | s :: ss => (b :: s) :: ss

/-- Keep the last `m` elements of a list (Rust `v[v.len()-m..]` resp. a
bounded deque after eviction). -/
def keepLast (m : Nat) (xs : List α) : List α :=
  xs.drop (xs.length - m)

/-- Rust `str::trim_end_matches('\n')`: remove every trailing newline. -/
def trimNl (l : List Nat) : List Nat :=
  (l.reverse.dropWhile (fun b => b = 10)).reverse

/-- Consume bytes up to and including the first newline (the
`skip_until_newline` loop of `read_line_bounded` in src/logs.rs); at end of
stream everything is consumed. -/
def dropThroughNl : List Nat → List Nat
  | [] => []
  | b :: r => if b = 10 then r else dropThroughNl r

/-- The newline scan of `read_line_bounded` (src/logs.rs lines 64-73):
starting at position `i`, return the index of the first newline, checking
the newline before the `total + i >= MAX_LINE_LEN` cap break. -/
def findNewlineBefore (cap : Nat) : List Nat → Nat → Option Nat
  | [], _ => none
  | b :: rest, i =>
    if b = 10 then some i
    else if cap ≤ i then none
    else findNewlineBefore cap rest (i + 1)

/-- Valid second byte of a 3-byte UTF-8 sequence led by `b`. -/
def utf8Second3 (b c : Nat) : Bool :=
  if b = 224 then decide (160 ≤ c ∧ c ≤ 191)
  else if b = 237 then decide (128 ≤ c ∧ c ≤ 159)
  else decide (128 ≤ c ∧ c ≤ 191)

/-- Valid second byte of a 4-byte UTF-8 sequence led by `b`. -/
def utf8Second4 (b c : Nat) : Bool :=
  if b = 240 then decide (144 ≤ c ∧ c ≤ 191)
  else if b = 244 then decide (128 ≤ c ∧ c ≤ 143)
  else decide (128 ≤ c ∧ c ≤ 191)

/-- Strict decoding of one UTF-8 character led by byte `b` with the
following bytes `rest`: `some (cp, extra)` is the scalar value and the
number of continuation bytes consumed; `none` is a validation failure. -/
def utf8Step (b : Nat) (rest : List Nat) : Option (Nat × Nat) :=
  if b < 128 then some (b, 0)
  else if 194 ≤ b ∧ b ≤ 223 then
    match rest with
    | c :: _ =>
      if 128 ≤ c ∧ c ≤ 191 then some ((b - 192) * 64 + (c - 128), 1) else none
    | [] => none
  else if 224 ≤ b ∧ b ≤ 239 then
    match rest with
    | c :: d :: _ =>
      if utf8Second3 b c ∧ (128 ≤ d ∧ d ≤ 191) then
        some ((b - 224) * 4096 + (c - 128) * 64 + (d - 128), 2)
      else none
    | _ => none
  else if 240 ≤ b ∧ b ≤ 244 then
    match rest with
    | c :: d :: e :: _ =>
      if utf8Second4 b c ∧ (128 ≤ d ∧ d ≤ 191) ∧ (128 ≤ e ∧ e ≤ 191) then
        some ((b - 240) * 262144 + (c - 128) * 4096 + (d - 128) * 64 +
          (e - 128), 3)
      else none
    | _ => none
  else none

/-- Rust `String::from_utf8` (strict UTF-8 validation and decoding):
`none` models `Err`.  Scalar values are returned as `Nat`. -/
def decodeUtf8 : List Nat → Option (List Nat)
  | [] => some []
  | b :: rest =>
    match utf8Step b rest with
    | none => none
    | some p => (decodeUtf8 (rest.drop p.2)).map (fun cs => p.1 :: cs)
termination_by l => l.length
decreasing_by simp; omega

/-- Lossy decoding of one UTF-8 character led by byte `b` with the
following bytes `rest`: the decoded scalar value (65533, U+FFFD, for the
maximal invalid subpart) and the number of extra bytes consumed. -/
def utf8StepLossy (b : Nat) (rest : List Nat) : Nat × Nat :=
  if b < 128 then (b, 0)
  else if 194 ≤ b ∧ b ≤ 223 then
    match rest with
    | c :: _ =>
      if 128 ≤ c ∧ c ≤ 191 then ((b - 192) * 64 + (c - 128), 1) else (65533, 0)
    | [] => (65533, 0)
  else if 224 ≤ b ∧ b ≤ 239 then
    match rest with
    | c :: d :: _ =>
      if utf8Second3 b c then
        if 128 ≤ d ∧ d ≤ 191 then
          ((b - 224) * 4096 + (c - 128) * 64 + (d - 128), 2)
        else (65533, 1)
      else (65533, 0)
    | [c] => if utf8Second3 b c then (65533, 1) else (65533, 0)
    | [] => (65533, 0)
  else if 240 ≤ b ∧ b ≤ 244 then
    match rest with
    | c :: d :: e :: _ =>
      if utf8Second4 b c then
        if 128 ≤ d ∧ d ≤ 191 then
          if 128 ≤ e ∧ e ≤ 191 then
            ((b - 240) * 262144 + (c - 128) * 4096 + (d - 128) * 64 +
              (e - 128), 3)
          else (65533, 2)
        else (65533, 1)
      else (65533, 0)
    | [c, d] =>
      if utf8Second4 b c then
        if 128 ≤ d ∧ d ≤ 191 then (65533, 2) else (65533, 1)
      else (65533, 0)
    | [c] => if utf8Second4 b c then (65533, 1) else (65533, 0)
    | [] => (65533, 0)
  else (65533, 0)

/-- Rust `String::from_utf8_lossy`: best-effort UTF-8 decoding, replacing
each maximal invalid subpart with U+FFFD (65533). -/
def decodeUtf8Lossy : List Nat → List Nat
  | [] => []
  | b :: rest =>
    (utf8StepLossy b rest).1 ::
      decodeUtf8Lossy (rest.drop (utf8StepLossy b rest).2)
termination_by l => l.length
decreasing_by simp; omega

/-- UTF-8 encoded byte length of one Unicode scalar value (Rust
`char::len_utf8`). -/
def utf8Len (c : Nat) : Nat :=
  if c < 128 then 1 else if c < 2048 then 2 else if c < 65536 then 3 else 4

/-- Rust `str::len`: byte length of the UTF-8 encoding of a decoded string. -/
def utf8ByteLength (cs : List Nat) : Nat :=
  (cs.map utf8Len).sum

/-- Rust `&s[..n]` on a `str`: the prefix of `s` whose UTF-8 encoding is
exactly `n` bytes; `none` models the panic when `n` is not a character
boundary (or is out of range). -/
def byteSlice : List Nat → Nat → Option (List Nat)
  | _, 0 => some []
  | [], _ + 1 => none
  | c :: r, n + 1 =>
    if utf8Len c ≤ n + 1 then
      (byteSlice r (n + 1 - utf8Len c)).map (fun p => c :: p)
    else none

/-- Truncation of one decoded tail fragment (`parse_tail_lines`,
src/logs.rs lines 158-162): fragments whose byte length exceeds
`MAX_LINE_LEN` are sliced at byte index `MAX_LINE_LEN` (which panics,
modelled `none`, off a character boundary) and marked with `"..."`. -/
def truncMark (s : List Nat) : Option (List Nat) :=
  if utf8ByteLength s > MAX_LINE_LEN then
    (byteSlice s MAX_LINE_LEN).map (fun p => p ++ [46, 46, 46])
  else some s

/-- The first step of `parse_tail_lines` (src/logs.rs lines 152-154): drop
everything up to and including the first newline, when one exists. -/
def dropFirstLineIfNl (c : List Nat) : List Nat :=
  if (10 : Nat) ∈ c then dropThroughNl c else c

/-- `parse_tail_lines` from src/logs.rs (lines 151-172): discard the first
(possibly partial) line, split the rest on newlines, lossily decode each
fragment, truncate oversized fragments with a `"..."` marker, drop empty
fragments, and keep the last `MAX_LINES` results.  `none` models the panic
of the byte slice inside the truncation. -/
def parseTailLines (content : List Nat) : Option (List (List Nat)) := do
  let decoded ← (splitNl (dropFirstLineIfNl content)).mapM
    (fun line => truncMark (decodeUtf8Lossy line))
  pure (keepLast MAX_LINES (decoded.filter (fun t => t ≠ [])))

/-- `read_line_bounded` from src/logs.rs (lines 55-122), with the
`BufRead` source modelled as the remaining byte list (each `fill_buf`
returns everything left).  Returns the decoded line (or `none` at end of
stream) and the unconsumed remainder of the stream. -/
def readLineBounded (input : List Nat) : Option (List Nat) × List Nat :=
  if input = [] then (none, [])
  else
    match findNewlineBefore MAX_LINE_LEN input 0 with
    | some i =>
      (some (decodeUtf8Lossy (trimNl (input.take (i + 1)))), input.drop (i + 1))
    | none =>
      if MAX_LINE_LEN ≤ input.length then
        (some (decodeUtf8Lossy (trimNl (input.take MAX_LINE_LEN))),
          dropThroughNl (input.drop MAX_LINE_LEN))
      else
        (some (decodeUtf8Lossy (trimNl input)), [])

theorem dropThroughNl_length_le (r : List Nat) :
    (dropThroughNl r).length ≤ r.length := by
  induction r with
  | nil => simp [dropThroughNl]
  | cons b t ih =>
    simp only [dropThroughNl]
    split
    · simp
    · exact Nat.le_trans ih (Nat.le_succ _)

theorem readLineBounded_rest_lt (input line rest : List Nat)
    (h : readLineBounded input = (some line, rest)) :
    rest.length < input.length := by
  by_cases hne : input = []
  · subst hne; simp [readLineBounded] at h
  · have hpos : 0 < input.length := List.length_pos.mpr hne
    unfold readLineBounded at h
    rw [if_neg hne] at h
    rcases hfind : findNewlineBefore MAX_LINE_LEN input 0 with _ | i
    · rw [hfind] at h
      by_cases hcap : MAX_LINE_LEN ≤ input.length
      · rw [if_pos hcap] at h
        have hr : rest = dropThroughNl (input.drop MAX_LINE_LEN) :=
          (Prod.mk.injEq _ _ _ _ ▸ h).2.symm
        have h1 : rest.length ≤ (input.drop MAX_LINE_LEN).length :=
          hr ▸ dropThroughNl_length_le _
        have h2 : (input.drop MAX_LINE_LEN).length = input.length - MAX_LINE_LEN :=
          List.length_drop _ _
        have hML : 0 < MAX_LINE_LEN := by decide
        omega
      · rw [if_neg hcap] at h
        have hr : rest = [] := (Prod.mk.injEq _ _ _ _ ▸ h).2.symm
        simpa [hr] using hpos
    · rw [hfind] at h
      have hr : rest = input.drop (i + 1) := (Prod.mk.injEq _ _ _ _ ▸ h).2.symm
      have : rest.length = input.length - (i + 1) := by
        rw [hr]; exact List.length_drop _ _
      omega

/-- One iteration of the `load_logs` deque (src/logs.rs lines 208-212):
push the line at the back, pop the front when over `MAX_LINES`. -/
def pushCap (deque : List (List Nat)) (line : List Nat) : List (List Nat) :=
  let d := deque ++ [line]
  if d.length > MAX_LINES then d.drop 1 else d

/-- The streaming loop of `load_logs` (src/logs.rs lines 205-213): read
lines one by one, keeping a deque of at most `MAX_LINES` lines and a total
line count. -/
def loadLoop (input : List Nat) (deque : List (List Nat)) (total : Nat) :
    List (List Nat) × Nat :=
  match h : readLineBounded input with
  | (none, _) => (deque, total)
  | (some line, rest) => loadLoop rest (pushCap deque line) (total + 1)
termination_by input.length
decreasing_by exact readLineBounded_rest_lt _ _ _ h

/-- `offset_after_n_newlines` from src/logs.rs (lines 124-149), on the file
content: the byte offset just past the `n`-th newline (or the total length
when there are fewer than `n` newlines). -/
def offsetAfterNNewlinesAux : List Nat → Nat → Nat → Nat
  | [], _, acc => acc
  | b :: rest, n, acc =>
    if b = 10 then
      if n = 1 then acc + 1 else offsetAfterNNewlinesAux rest (n - 1) (acc + 1)
    else offsetAfterNNewlinesAux rest n (acc + 1)

def offsetAfterNNewlines (content : List Nat) (n : Nat) : Nat :=
  if n = 0 then 0 else offsetAfterNNewlinesAux content n 0

/-- Byte content of a file consisting of the given lines, each terminated
by a newline. -/
def encodeLines (L : List (List Nat)) : List Nat :=
  (L.map (fun l => l ++ [10])).flatten

/-- `load_logs` from src/logs.rs (lines 175-227) on the content of an
existing file: returns (kept lines, byte offset, 1-based first line
number).  The kept lines are `none` when the large-file tail-scan path
panics inside `parse_tail_lines`. -/
def loadLogs (content : List Nat) : Option (List (List Nat)) × Nat × Nat :=
  if content.length > TAIL_READ_SIZE then
    let start := content.length - TAIL_READ_SIZE
    let buf := (content.drop start).take TAIL_READ_SIZE
    (parseTailLines buf, content.length, 1)
  else
    let res := loadLoop content [] 0
    let kept := res.1
    let total := res.2
    let fls := total - kept.length + 1
    let offset := if fls ≤ 1 then 0 else offsetAfterNNewlines content (fls - 1)
    (some kept, offset, fls)

/-- The fields of `App` (src/app.rs) that the live-tail engine touches.
`livePartial` models the `live_partial` field. -/
structure AppState where
  all_lines : List (List Nat)
  live_file_offset : Nat
  livePartial : List Nat
  file_line_start : Nat
deriving DecidableEq

/-- `App::new` (src/app.rs lines 49-59), restricted to the retained-buffer
fields: evict the oldest lines over `MAX_LINES` and advance
`file_line_start` by the eviction count. -/
def appNew (lines : List (List Nat)) (offset : Nat) (fls : Nat) : AppState :=
  if lines.length > MAX_LINES then
    { all_lines := lines.drop (lines.length - MAX_LINES)
      live_file_offset := offset
      livePartial := []
      file_line_start := fls + (lines.length - MAX_LINES) }
  else
    { all_lines := lines
      live_file_offset := offset
      livePartial := []
      file_line_start := fls }

/-- `App::poll_live_file` (src/app.rs lines 114-161) with the outcomes of
the three I/O steps made explicit: `openOk` is whether `File::open`
succeeds, `seekOk` whether the seek to `live_file_offset` succeeds (its
failure is ignored by `let _ =`, leaving the read at position 0), `readOk`
whether `read_to_end` succeeds.  `file` is the file's byte content. -/
def pollLiveFileWith (st : AppState) (openOk seekOk readOk : Bool)
    (file : List Nat) : AppState :=
  if !openOk then st
  else
    let readStart := if seekOk then st.live_file_offset else 0
    if !readOk then st
    else
      let buf := (file.drop readStart).take POLL_READ_CAP
      let new_len := st.live_file_offset + buf.length
      if buf = [] then st
      else
        match decodeUtf8 buf with
        | none => st
        | some s =>
          let full := st.livePartial ++ s
          let lines := splitNl full
          let st1 :=
            if full.getLast? = some 10 then
              { st with
                livePartial := []
                all_lines := st.all_lines ++ lines.filter (fun l => l ≠ []) }
            else
              { st with
                all_lines := st.all_lines ++ lines.dropLast
                livePartial := (lines.getLastD []) }
          let st2 := { st1 with live_file_offset := new_len }
          if st2.all_lines.length > MAX_LINES then
            { st2 with
              all_lines := st2.all_lines.drop (st2.all_lines.length - MAX_LINES)
              file_line_start :=
                st2.file_line_start + (st2.all_lines.length - MAX_LINES) }
          else st2

/-- `App::poll_live_file` on the success path of all three I/O steps. -/
def pollLiveFile (st : AppState) (file : List Nat) : AppState :=
  pollLiveFileWith st true true true file

/-- The complete (newline-terminated) lines of a byte file, as decoded
text: the ground truth for "the true 1-based source line number". -/
def trueCompleteLines (file : List Nat) : List (List Nat) :=
  (splitNl (decodeUtf8Lossy file)).dropLast

/-- Rust `char::is_whitespace`, restricted to the ASCII whitespace
characters occurring in this development. -/
def isWs (c : Char) : Bool :=
  c = ' ' || c = '\t' || c = '\n' || c = '\r'

/-- Rust `str::trim`: strip whitespace from both ends. -/
def trimChars (s : List Char) : List Char :=
  ((s.dropWhile isWs).reverse.dropWhile isWs).reverse

/-- Rust `str::to_lowercase`, for characters whose lowercase form is the
single ASCII lowercase character (the only case exercised here). -/
def lowerStr (s : List Char) : List Char :=
  s.map Char.toLower

/-- Rust `str::contains(&str)`: substring containment. -/
def strContains (hay needle : List Char) : Bool :=
  (List.range (hay.length + 1)).any (fun i => needle.isPrefixOf (hay.drop i))

/-- `apply_filter` from src/logs.rs (lines 28-53): lowercase the trimmed
query; with an empty query index every line, otherwise keep the indexed
lines whose lowercase form contains the query; finally keep only the last
`max_lines` entries. -/
def applyFilter (lines : List (List Char)) (filter : List Char)
    (max_lines : Nat) : List (Nat × List Char) :=
  let q := lowerStr (trimChars filter)
  let with_idx :=
    if q = [] then lines.enum
    else lines.enum.filter (fun p => strContains (lowerStr p.2) q)
  if with_idx.length ≤ max_lines then with_idx
  else with_idx.drop (with_idx.length - max_lines)

/-- Modelled from the spec (§4.4 FilterView), with the cap applied to the
empty-query branch as well: the entries whose lowercase form contains the
lowercase trimmed query (all entries when the query trims to nothing),
keeping only the most recent `max_lines` matches. -/
def applyFilterSpec (lines : List (List Char)) (filter : List Char)
    (max_lines : Nat) : List (Nat × List Char) :=
  let q := lowerStr (trimChars filter)
  keepLast max_lines
    (lines.enum.filter (fun p => q = [] || strContains (lowerStr p.2) q))

/-- Retained-buffer invariant: `full` is the ghost list of all complete
source lines so far; the buffer is the suffix of `full` starting at line
`file_line_start`, so `file_line_start + i` is the true 1-based source
line number of the element at index `i`. -/
def Inv (full : List (List Nat)) (st : AppState) : Prop :=
  1 ≤ st.file_line_start ∧
  st.all_lines = full.drop (st.file_line_start - 1) ∧
  full.length = (st.file_line_start - 1) + st.all_lines.length ∧
  st.all_lines.length ≤ MAX_LINES

/-- The complete lines a poll appends to the buffer, as a function of the
carried partial fragment and the decoded new text (src/app.rs lines
137-153): with a newline-terminated concatenation every non-empty fragment,
otherwise every fragment except the trailing one. -/
def pollPushed (partialFrag s : List Nat) : List (List Nat) :=
  if (partialFrag ++ s).getLast? = some 10 then
    (splitNl (partialFrag ++ s)).filter (fun l => l ≠ [])
  else (splitNl (partialFrag ++ s)).dropLast

/-- The partial fragment carried to the next poll (src/app.rs lines
141, 152). -/
def pollNewPartial (partialFrag s : List Nat) : List Nat :=
  if (partialFrag ++ s).getLast? = some 10 then []
  else (splitNl (partialFrag ++ s)).getLastD []

theorem keepLast_eq_self {m : Nat} {xs : List α} (h : xs.length ≤ m) :
    keepLast m xs = xs := by
  simp [keepLast, Nat.sub_eq_zero_of_le h]

theorem length_keepLast (m : Nat) (xs : List α) :
    (keepLast m xs).length = min m xs.length := by
  simp only [keepLast, List.length_drop]
  omega

theorem keepLast_append (m : Nat) (xs ys : List α) :
    keepLast m (keepLast m xs ++ ys) = keepLast m (xs ++ ys) := by
  have h1 : keepLast m xs ++ ys = (xs ++ ys).drop (xs.length - m) := by
    unfold keepLast
    rw [List.drop_append_of_le_length (Nat.sub_le _ _)]
  rw [h1]
  unfold keepLast
  rw [List.drop_drop]
  congr 1
  simp only [List.length_drop, List.length_append]
  omega

theorem evict_eq_keepLast (m : Nat) (xs : List α) :
    (if xs.length > m then xs.drop (xs.length - m) else xs) = keepLast m xs := by
  unfold keepLast
  split
  · rfl
  · rw [Nat.sub_eq_zero_of_le (by omega), List.drop_zero]

theorem capIf_eq_keepLast (m : Nat) (xs : List α) :
    (if xs.length ≤ m then xs else xs.drop (xs.length - m)) = keepLast m xs := by
  unfold keepLast
  split
  · rw [Nat.sub_eq_zero_of_le (by omega), List.drop_zero]
  · rfl

theorem splitNl_ne_nil (l : List Nat) : splitNl l ≠ [] := by
  induction l with
  | nil => simp [splitNl]
  | cons b t ih =>
    simp only [splitNl]
    split
    · simp
    · cases h : splitNl t with
      | nil => simp
      | cons s ss => simp

theorem splitNl_no10 {l : List Nat} (h : (10 : Nat) ∉ l) : splitNl l = [l] := by
  induction l with
  | nil => rfl
  | cons b t ih =>
    have hb : ¬ b = 10 := fun e => h (by simp [e])
    have ht : (10 : Nat) ∉ t := fun m => h (List.mem_cons_of_mem _ m)
    simp only [splitNl, if_neg hb, ih ht]

theorem splitNl_cons10 (t : List Nat) : splitNl (10 :: t) = [] :: splitNl t := by
  simp [splitNl]

theorem splitNl_cons_ne {b : Nat} (t : List Nat) (hb : ¬ b = 10) :
    splitNl (b :: t) =
      (b :: (splitNl t).headD []) :: (splitNl t).tail := by
  simp only [splitNl, if_neg hb]
  cases h : splitNl t with
  | nil => exact absurd h (splitNl_ne_nil t)
  | cons s ss => simp

theorem splitNl_append_cons10 (x y : List Nat) :
    splitNl (x ++ 10 :: y) = splitNl x ++ splitNl y := by
  induction x with
  | nil => simp [splitNl]
  | cons b t ih =>
    by_cases hb : b = 10
    · subst hb
      rw [List.cons_append, splitNl_cons10, splitNl_cons10, ih, List.cons_append]
    · rw [List.cons_append, splitNl_cons_ne _ hb, splitNl_cons_ne t hb, ih]
      cases hs : splitNl t with
      | nil => exact absurd hs (splitNl_ne_nil t)
      | cons s ss => simp

theorem splitNl_concat10 (x : List Nat) :
    splitNl (x ++ [10]) = splitNl x ++ [[]] := by
  have := splitNl_append_cons10 x []
  simpa [splitNl] using this

theorem dropWhile_nl_of_no10 {r : List Nat} (h : (10 : Nat) ∉ r) :
    r.dropWhile (fun b => b = 10) = r := by
  cases r with
  | nil => rfl
  | cons b t =>
    have hb : ¬ b = 10 := fun e => h (by simp [e])
    simp [List.dropWhile_cons, hb]

theorem trimNl_no10 {l : List Nat} (h : (10 : Nat) ∉ l) : trimNl l = l := by
  unfold trimNl
  rw [dropWhile_nl_of_no10 (by simpa using h), List.reverse_reverse]

theorem trimNl_concat10 {l : List Nat} (h : (10 : Nat) ∉ l) :
    trimNl (l ++ [10]) = l := by
  unfold trimNl
  have h1 : (l ++ [10]).reverse = 10 :: l.reverse := by simp
  rw [h1]
  have h2 : ((10 : Nat) :: l.reverse).dropWhile (fun b => b = 10) =
      l.reverse.dropWhile (fun b => b = 10) := by
    simp [List.dropWhile_cons]
  rw [h2, dropWhile_nl_of_no10 (by simpa using h), List.reverse_reverse]

theorem decodeUtf8Lossy_nil : decodeUtf8Lossy [] = [] := by
  rw [decodeUtf8Lossy]

theorem decodeUtf8_nil : decodeUtf8 [] = some [] := by
  rw [decodeUtf8]

theorem decodeUtf8Lossy_cons (b : Nat) (t : List Nat) :
    decodeUtf8Lossy (b :: t) =
      (utf8StepLossy b t).1 ::
        decodeUtf8Lossy (t.drop (utf8StepLossy b t).2) := by
  rw [decodeUtf8Lossy]

theorem decodeUtf8_cons (b : Nat) (t : List Nat) :
    decodeUtf8 (b :: t) =
      match utf8Step b t with
      | none => none
      | some p => (decodeUtf8 (t.drop p.2)).map (fun cs => p.1 :: cs) := by
  rw [decodeUtf8]

theorem utf8StepLossy_lt {b : Nat} (t : List Nat) (hb : b < 128) :
    utf8StepLossy b t = (b, 0) := by
  unfold utf8StepLossy
  rw [if_pos hb]

theorem utf8Step_lt {b : Nat} (t : List Nat) (hb : b < 128) :
    utf8Step b t = some (b, 0) := by
  unfold utf8Step
  rw [if_pos hb]

theorem decodeUtf8Lossy_cons_lt {b : Nat} (t : List Nat) (hb : b < 128) :
    decodeUtf8Lossy (b :: t) = b :: decodeUtf8Lossy t := by
  rw [decodeUtf8Lossy_cons, utf8StepLossy_lt t hb]
  simp

theorem decodeUtf8_cons_lt {b : Nat} (t : List Nat) (hb : b < 128) :
    decodeUtf8 (b :: t) = (decodeUtf8 t).map (fun cs => b :: cs) := by
  rw [decodeUtf8_cons, utf8Step_lt t hb]
  simp

theorem decodeUtf8Lossy_ascii {l : List Nat} (h : ∀ b ∈ l, b < 128) :
    decodeUtf8Lossy l = l := by
  induction l with
  | nil => exact decodeUtf8Lossy_nil
  | cons b t ih =>
    have hb : b < 128 := h b (by simp)
    rw [decodeUtf8Lossy_cons_lt t hb, ih (fun x hx => h x (by simp [hx]))]

theorem decodeUtf8_ascii {l : List Nat} (h : ∀ b ∈ l, b < 128) :
    decodeUtf8 l = some l := by
  induction l with
  | nil => exact decodeUtf8_nil
  | cons b t ih =>
    have hb : b < 128 := h b (by simp)
    rw [decodeUtf8_cons_lt t hb, ih (fun x hx => h x (by simp [hx]))]
    rfl

theorem findNewlineBefore_cons (cap b : Nat) (t : List Nat) (i : Nat) :
    findNewlineBefore cap (b :: t) i =
      if b = 10 then some i
      else if cap ≤ i then none
      else findNewlineBefore cap t (i + 1) := rfl

theorem findNewlineBefore_append_no10 {cap : Nat} {l : List Nat}
    (h10 : (10 : Nat) ∉ l) (rest : List Nat) :
    ∀ i, i + l.length ≤ cap →
      findNewlineBefore cap (l ++ rest) i =
        findNewlineBefore cap rest (i + l.length) := by
  induction l with
  | nil => intro i _; simp
  | cons b t ih =>
    intro i hle
    have hb : ¬ b = 10 := fun e => h10 (by simp [e])
    have ht : (10 : Nat) ∉ t := fun m => h10 (List.mem_cons_of_mem _ m)
    have hcap : ¬ cap ≤ i := by simp at hle; omega
    rw [List.cons_append, findNewlineBefore_cons, if_neg hb, if_neg hcap]
    rw [ih ht (i + 1) (by simp at hle ⊢; omega)]
    congr 1
    simp
    omega

theorem readLineBounded_found {input : List Nat} {i : Nat} (hne : input ≠ [])
    (hf : findNewlineBefore MAX_LINE_LEN input 0 = some i) :
    readLineBounded input =
      (some (decodeUtf8Lossy (trimNl (input.take (i + 1)))), input.drop (i + 1)) := by
  unfold readLineBounded
  rw [if_neg hne, hf]

theorem readLineBounded_capped {input : List Nat} (hne : input ≠ [])
    (hf : findNewlineBefore MAX_LINE_LEN input 0 = none)
    (hcap : MAX_LINE_LEN ≤ input.length) :
    readLineBounded input =
      (some (decodeUtf8Lossy (trimNl (input.take MAX_LINE_LEN))),
        dropThroughNl (input.drop MAX_LINE_LEN)) := by
  unfold readLineBounded
  rw [if_neg hne, hf]
  simp [hcap]

theorem readLineBounded_small {input : List Nat} (hne : input ≠ [])
    (hf : findNewlineBefore MAX_LINE_LEN input 0 = none)
    (hcap : ¬ MAX_LINE_LEN ≤ input.length) :
    readLineBounded input = (some (decodeUtf8Lossy (trimNl input)), []) := by
  unfold readLineBounded
  rw [if_neg hne, hf]
  simp [hcap]

theorem decodeUtf8_cons_none {b : Nat} {t : List Nat}
    (h : utf8Step b t = none) : decodeUtf8 (b :: t) = none := by
  rw [decodeUtf8_cons, h]

theorem decodeUtf8_cons_some {b : Nat} {t : List Nat} {p : Nat × Nat}
    (h : utf8Step b t = some p) :
    decodeUtf8 (b :: t) = (decodeUtf8 (t.drop p.2)).map (fun cs => p.1 :: cs) := by
  rw [decodeUtf8_cons, h]

theorem utf8Step_append {b cp extra : Nat} {rest bs : List Nat}
    (h : utf8Step b rest = some (cp, extra)) :
    utf8Step b (rest ++ bs) = some (cp, extra) ∧ extra ≤ rest.length := by
  by_cases h1 : b < 128
  · rw [utf8Step_lt _ h1] at h
    simp only [Option.some.injEq, Prod.mk.injEq] at h
    obtain ⟨rfl, rfl⟩ := h
    exact ⟨utf8Step_lt _ h1, Nat.zero_le _⟩
  · unfold utf8Step at h ⊢
    rw [if_neg h1] at h ⊢
    by_cases h2 : 194 ≤ b ∧ b ≤ 223
    · rw [if_pos h2] at h ⊢
      cases rest with
      | nil => simp at h
      | cons c r1 =>
        rw [List.cons_append]
        simp only at h ⊢
        by_cases h3 : 128 ≤ c ∧ c ≤ 191
        · rw [if_pos h3] at h ⊢
          simp only [Option.some.injEq, Prod.mk.injEq] at h
          obtain ⟨rfl, rfl⟩ := h
          exact ⟨rfl, by simp⟩
        · rw [if_neg h3] at h
          exact absurd h (by simp)
    · rw [if_neg h2] at h ⊢
      by_cases h4 : 224 ≤ b ∧ b ≤ 239
      · rw [if_pos h4] at h ⊢
        match rest with
        | [] => simp at h
        | [c] => simp at h
        | c :: d :: r1 =>
          rw [List.cons_append, List.cons_append]
          simp only at h ⊢
          by_cases h5 : utf8Second3 b c ∧ (128 ≤ d ∧ d ≤ 191)
          · rw [if_pos h5] at h ⊢
            simp only [Option.some.injEq, Prod.mk.injEq] at h
            obtain ⟨rfl, rfl⟩ := h
            exact ⟨rfl, by simp⟩
          · rw [if_neg h5] at h
            exact absurd h (by simp)
      · rw [if_neg h4] at h ⊢
        by_cases h6 : 240 ≤ b ∧ b ≤ 244
        · rw [if_pos h6] at h ⊢
          match rest with
          | [] => simp at h
          | [c] => simp at h
          | [c, d] => simp at h
          | c :: d :: e :: r1 =>
            rw [List.cons_append, List.cons_append, List.cons_append]
            simp only at h ⊢
            by_cases h7 :
                utf8Second4 b c ∧ (128 ≤ d ∧ d ≤ 191) ∧ (128 ≤ e ∧ e ≤ 191)
            · rw [if_pos h7] at h ⊢
              simp only [Option.some.injEq, Prod.mk.injEq] at h
              obtain ⟨rfl, rfl⟩ := h
              exact ⟨rfl, by simp⟩
            · rw [if_neg h7] at h
              exact absurd h (by simp)
        · rw [if_neg h6] at h
          exact absurd h (by simp)

theorem decodeUtf8_append_aux : ∀ (n : Nat) (a : List Nat), a.length ≤ n →
    ∀ {bs x y : List Nat}, decodeUtf8 a = some x → decodeUtf8 bs = some y →
      decodeUtf8 (a ++ bs) = some (x ++ y) := by
  intro n
  induction n with
  | zero =>
    intro a ha bs x y hx hy
    have hnil : a = [] := List.eq_nil_of_length_eq_zero (by omega)
    subst hnil
    rw [decodeUtf8_nil] at hx
    cases hx
    simpa using hy
  | succ n ih =>
    intro a ha bs x y hx hy
    cases a with
    | nil =>
      rw [decodeUtf8_nil] at hx
      cases hx
      simpa using hy
    | cons b rest =>
      cases hstep : utf8Step b rest with
      | none => rw [decodeUtf8_cons_none hstep] at hx; cases hx
      | some p =>
        obtain ⟨cp, extra⟩ := p
        rw [decodeUtf8_cons_some hstep] at hx
        simp only [Option.map_eq_some'] at hx
        obtain ⟨cs, hcs, rfl⟩ := hx
        obtain ⟨hstep2, hle⟩ := @utf8Step_append b cp extra rest bs hstep
        rw [List.cons_append, decodeUtf8_cons_some hstep2]
        have hdrop : (rest ++ bs).drop extra = rest.drop extra ++ bs :=
          List.drop_append_of_le_length hle
        simp only [List.length_cons] at ha
        rw [hdrop, ih (rest.drop extra)
          (by simp only [List.length_drop]; omega) hcs hy]
        simp

theorem decodeUtf8_append {a bs x y : List Nat} (hx : decodeUtf8 a = some x)
    (hy : decodeUtf8 bs = some y) : decodeUtf8 (a ++ bs) = some (x ++ y) :=
  decodeUtf8_append_aux a.length a (Nat.le_refl _) hx hy

theorem decodeUtf8Lossy_replicate {b : Nat} (hb : b < 128) (n : Nat) :
    decodeUtf8Lossy (List.replicate n b) = List.replicate n b :=
  decodeUtf8Lossy_ascii
    (fun x hx => by rw [List.eq_of_mem_replicate hx]; exact hb)

theorem dropThroughNl_replicate_cons10 {a : Nat} (ha : ¬ a = 10) (n : Nat)
    (r : List Nat) :
    dropThroughNl (List.replicate n a ++ 10 :: r) = r := by
  induction n with
  | zero => simp [dropThroughNl]
  | succ n ih =>
    rw [List.replicate_succ, List.cons_append]
    simp only [dropThroughNl, if_neg ha]
    exact ih

theorem readLineBounded_line {l rest : List Nat} (h10 : (10 : Nat) ∉ l)
    (hlen : l.length ≤ MAX_LINE_LEN) :
    readLineBounded (l ++ 10 :: rest) = (some (decodeUtf8Lossy l), rest) := by
  have hne : l ++ 10 :: rest ≠ [] := by simp
  have hf : findNewlineBefore MAX_LINE_LEN (l ++ 10 :: rest) 0 = some l.length := by
    rw [findNewlineBefore_append_no10 h10 _ 0 (by omega)]
    simp [findNewlineBefore_cons]
  rw [readLineBounded_found hne hf]
  have hsplit : l ++ 10 :: rest = (l ++ [10]) ++ rest := by simp
  have ht : (l ++ 10 :: rest).take (l.length + 1) = l ++ [10] := by
    rw [hsplit]; exact List.take_left' (by simp)
  have hd : (l ++ 10 :: rest).drop (l.length + 1) = rest := by
    rw [hsplit]; exact List.drop_left' (by simp)
  rw [ht, hd, trimNl_concat10 h10]

theorem readLineBounded_oversized_aux (pre post : List Nat)
    (hlen : pre.length = MAX_LINE_LEN) (h10 : (10 : Nat) ∉ pre) :
    readLineBounded (pre ++ post) =
      (some (decodeUtf8Lossy pre), dropThroughNl post) := by
  have hpre_ne : pre ≠ [] := by
    intro h
    rw [h] at hlen
    simp [MAX_LINE_LEN] at hlen
  have hne : pre ++ post ≠ [] := by simp [hpre_ne]
  have hf0 : findNewlineBefore MAX_LINE_LEN (pre ++ post) 0 =
      findNewlineBefore MAX_LINE_LEN post MAX_LINE_LEN := by
    rw [findNewlineBefore_append_no10 h10 post 0 (by omega)]
    rw [Nat.zero_add, hlen]
  cases post with
  | nil =>
    have hf : findNewlineBefore MAX_LINE_LEN (pre ++ []) 0 = none := by
      rw [hf0]; rfl
    have hcap : MAX_LINE_LEN ≤ (pre ++ []).length := by simp [hlen]
    rw [readLineBounded_capped hne hf hcap, List.append_nil, ← hlen,
      List.take_length, List.drop_length, trimNl_no10 h10]
  | cons c p' =>
    by_cases hc : c = 10
    · subst hc
      have hf : findNewlineBefore MAX_LINE_LEN (pre ++ 10 :: p') 0 =
          some MAX_LINE_LEN := by
        rw [hf0, findNewlineBefore_cons]
        simp
      rw [readLineBounded_found hne hf]
      have hsplit : pre ++ 10 :: p' = (pre ++ [10]) ++ p' := by simp
      have ht : (pre ++ 10 :: p').take (MAX_LINE_LEN + 1) = pre ++ [10] := by
        rw [hsplit]; exact List.take_left' (by simp [hlen])
      have hd : (pre ++ 10 :: p').drop (MAX_LINE_LEN + 1) = p' := by
        rw [hsplit]; exact List.drop_left' (by simp [hlen])
      rw [ht, hd, trimNl_concat10 h10]
      have hdr : dropThroughNl (10 :: p') = p' := by simp [dropThroughNl]
      rw [hdr]
    · have hf : findNewlineBefore MAX_LINE_LEN (pre ++ c :: p') 0 = none := by
        rw [hf0, findNewlineBefore_cons, if_neg hc, if_pos (Nat.le_refl _)]
      have hcap : MAX_LINE_LEN ≤ (pre ++ c :: p').length := by
        simp [hlen]
      rw [readLineBounded_capped hne hf hcap, List.take_left' hlen,
        List.drop_left' hlen, trimNl_no10 h10]

theorem pollLiveFile_noop (st : AppState) (file : List Nat)
    (h : file.drop st.live_file_offset = []) : pollLiveFile st file = st := by
  unfold pollLiveFile pollLiveFileWith
  simp [h]

theorem pollLiveFile_spec (st : AppState) (file : List Nat) (s : List Nat)
    (hbuf : (file.drop st.live_file_offset).take POLL_READ_CAP ≠ [])
    (hdec : decodeUtf8 ((file.drop st.live_file_offset).take POLL_READ_CAP) =
      some s) :
    pollLiveFile st file =
      { all_lines :=
          keepLast MAX_LINES (st.all_lines ++ pollPushed st.livePartial s)
        live_file_offset := st.live_file_offset +
          ((file.drop st.live_file_offset).take POLL_READ_CAP).length
        livePartial := pollNewPartial st.livePartial s
        file_line_start := st.file_line_start +
          ((st.all_lines ++ pollPushed st.livePartial s).length -
            MAX_LINES) } := by
  unfold pollLiveFile pollLiveFileWith pollPushed pollNewPartial
  simp only [Bool.not_true, Bool.false_eq_true, ite_false, eq_self_iff_true,
    ite_true]
  rw [if_neg hbuf]
  split
  · rename_i heq
    rw [hdec] at heq
    cases heq
  · rename_i s' heq
    rw [hdec] at heq
    have hss : s' = s := by
      injection heq with h3
      exact h3.symm
    subst hss
    by_cases hnl : (st.livePartial ++ s').getLast? = some 10
    · rw [if_pos hnl, if_pos hnl, if_pos hnl]
      by_cases hev :
          (st.all_lines ++
            (splitNl (st.livePartial ++ s')).filter (fun l => l ≠ [])).length >
            MAX_LINES
      · rw [if_pos hev]
        rfl
      · rw [if_neg hev]
        have hle :
            (st.all_lines ++
              (splitNl (st.livePartial ++ s')).filter
                (fun l => l ≠ [])).length ≤ MAX_LINES := by omega
        simp only [AppState.mk.injEq]
        exact ⟨(keepLast_eq_self hle).symm, trivial, trivial, by omega⟩
    · rw [if_neg hnl, if_neg hnl, if_neg hnl]
      by_cases hev :
          (st.all_lines ++ (splitNl (st.livePartial ++ s')).dropLast).length >
            MAX_LINES
      · rw [if_pos hev]
        rfl
      · rw [if_neg hev]
        have hle :
            (st.all_lines ++
              (splitNl (st.livePartial ++ s')).dropLast).length ≤
              MAX_LINES := by omega
        simp only [AppState.mk.injEq]
        exact ⟨(keepLast_eq_self hle).symm, trivial, trivial, by omega⟩

theorem take_cap_eq_nil_iff {off cap : Nat} {file : List Nat} (hcap : 0 < cap) :
    (file.drop off).take cap = [] ↔ file.drop off = [] := by
  rw [List.take_eq_nil_iff]
  constructor
  · rintro (h | h)
    · omega
    · exact h
  · exact fun h => Or.inr h

theorem pollPushed_of_getLast10 {P s z : List Nat}
    (hz : P ++ s = z ++ [10]) :
    pollPushed P s = (splitNl z).filter (fun l => l ≠ []) := by
  unfold pollPushed
  rw [hz, List.getLast?_concat, if_pos rfl, splitNl_concat10]
  simp

theorem pollNewPartial_of_getLast10 {P s z : List Nat}
    (hz : P ++ s = z ++ [10]) : pollNewPartial P s = [] := by
  unfold pollNewPartial
  rw [hz, List.getLast?_concat, if_pos rfl]

theorem pollPushed_eq_dropLast {P s : List Nat}
    (hnb : [] ∉ (splitNl (P ++ s)).dropLast) :
    pollPushed P s = (splitNl (P ++ s)).dropLast := by
  unfold pollPushed
  by_cases hnl : (P ++ s).getLast? = some 10
  · rw [if_pos hnl]
    obtain ⟨z, hz⟩ := List.getLast?_eq_some_iff.mp hnl
    rw [hz, splitNl_concat10] at hnb ⊢
    rw [List.dropLast_concat] at hnb ⊢
    rw [List.filter_append]
    have h1 : List.filter (fun l => l ≠ []) [([] : List Nat)] = [] := by simp
    rw [h1, List.append_nil]
    refine List.filter_eq_self.mpr fun a ha => ?_
    have hne : a ≠ [] := fun e => hnb (e ▸ ha)
    simpa using hne
  · rw [if_neg hnl]

theorem pollLiveFile_inv (full : List (List Nat)) (st : AppState)
    (file : List Nat) (s : List Nat) (hinv : Inv full st)
    (hdec : decodeUtf8 ((file.drop st.live_file_offset).take POLL_READ_CAP) =
      some s)
    (hP : (10 : Nat) ∉ st.livePartial)
    (hnb : [] ∉ (splitNl (st.livePartial ++ s)).dropLast) :
    Inv (full ++ (splitNl (st.livePartial ++ s)).dropLast)
      (pollLiveFile st file) ∧
    (pollLiveFile st file).file_line_start =
      st.file_line_start +
        (st.all_lines.length +
          ((splitNl (st.livePartial ++ s)).dropLast).length -
          (pollLiveFile st file).all_lines.length) := by
  obtain ⟨h1, h2, h3, h4⟩ := hinv
  by_cases hbuf : (file.drop st.live_file_offset).take POLL_READ_CAP = []
  · -- no new bytes: the poll is a no-op and no line is completed
    have hdrop : file.drop st.live_file_offset = [] := by
      rcases List.take_eq_nil_iff.mp hbuf with h | h
      · exact absurd h (by simp [POLL_READ_CAP])
      · exact h
    have hs : s = [] := by
      rw [hbuf, decodeUtf8_nil] at hdec
      injection hdec with h
      exact h.symm
    subst hs
    rw [List.append_nil, splitNl_no10 hP]
    have hL : ([st.livePartial] : List (List Nat)).dropLast = [] := rfl
    rw [hL, List.append_nil, pollLiveFile_noop st file hdrop]
    exact ⟨⟨h1, h2, h3, h4⟩, by simp⟩
  · rw [pollLiveFile_spec st file s hbuf hdec, pollPushed_eq_dropLast hnb]
    generalize (splitNl (st.livePartial ++ s)).dropLast = L
    have hA2 : st.all_lines ++ L = (full ++ L).drop (st.file_line_start - 1) := by
      rw [h2, List.drop_append_of_le_length (by omega)]
    refine ⟨⟨?_, ?_, ?_, ?_⟩, ?_⟩
    · show (1 : Nat) ≤ st.file_line_start +
        ((st.all_lines ++ L).length - MAX_LINES)
      omega
    · show keepLast MAX_LINES (st.all_lines ++ L) =
        (full ++ L).drop
          (st.file_line_start + ((st.all_lines ++ L).length - MAX_LINES) - 1)
      unfold keepLast
      rw [hA2, List.drop_drop]
      congr 1
      rw [← hA2]
      simp only [List.length_append]
      omega
    · show (full ++ L).length =
        st.file_line_start + ((st.all_lines ++ L).length - MAX_LINES) - 1 +
          (keepLast MAX_LINES (st.all_lines ++ L)).length
      rw [length_keepLast]
      simp only [List.length_append]
      omega
    · show (keepLast MAX_LINES (st.all_lines ++ L)).length ≤ MAX_LINES
      rw [length_keepLast]
      omega
    · show st.file_line_start + ((st.all_lines ++ L).length - MAX_LINES) =
        st.file_line_start + (st.all_lines.length + L.length -
          (keepLast MAX_LINES (st.all_lines ++ L)).length)
      rw [length_keepLast]
      simp only [List.length_append]
      omega

/-- C5 (amended): appending `a` and polling, then appending `b` and
polling, gives the same state as appending `a ++ b` and polling once,
provided each write is valid UTF-8 that ends with a newline and the
combined size does not exceed `POLL_READ_CAP`. -/
theorem poll_reassembly_two_writes (st : AppState) (base a b a' b' : List Nat)
    (hoff : st.live_file_offset = base.length)
    (hda : decodeUtf8 a = some a') (hdb : decodeUtf8 b = some b')
    (hnla : a'.getLast? = some 10) (hnlb : b'.getLast? = some 10)
    (hcap : a.length + b.length ≤ POLL_READ_CAP) :
    pollLiveFile (pollLiveFile st (base ++ a)) (base ++ (a ++ b)) =
      pollLiveFile st (base ++ (a ++ b)) := by
  obtain ⟨A, off, P, fls⟩ := st
  change off = base.length at hoff
  subst hoff
  have ha'ne : a' ≠ [] := by
    intro h
    rw [h] at hnla
    simp at hnla
  have hb'ne : b' ≠ [] := by
    intro h
    rw [h] at hnlb
    simp at hnlb
  have hane : a ≠ [] := by
    intro h
    subst h
    rw [decodeUtf8_nil] at hda
    injection hda with h'
    exact ha'ne h'.symm
  have hbne : b ≠ [] := by
    intro h
    subst h
    rw [decodeUtf8_nil] at hdb
    injection hdb with h'
    exact hb'ne h'.symm
  obtain ⟨za, hza⟩ := List.getLast?_eq_some_iff.mp hnla
  obtain ⟨zb, hzb⟩ := List.getLast?_eq_some_iff.mp hnlb
  -- first poll of the two-step side
  have hbuf1 : ((base ++ a).drop base.length).take POLL_READ_CAP = a := by
    rw [List.drop_left, List.take_of_length_le (by omega)]
  have hb1 : ((base ++ a).drop base.length).take POLL_READ_CAP ≠ [] := by
    rw [hbuf1]; exact hane
  have hd1 : decodeUtf8 (((base ++ a).drop base.length).take POLL_READ_CAP) =
      some a' := by rw [hbuf1]; exact hda
  have hz1 : P ++ a' = (P ++ za) ++ [10] := by
    rw [hza, List.append_assoc]
  have hp1 : pollPushed P a' =
      (splitNl (P ++ za)).filter (fun l => l ≠ []) :=
    pollPushed_of_getLast10 hz1
  have hnp1 : pollNewPartial P a' = [] := pollNewPartial_of_getLast10 hz1
  have h1 := pollLiveFile_spec ⟨A, base.length, P, fls⟩ (base ++ a) a' hb1 hd1
  simp only [hbuf1, hp1, hnp1] at h1
  rw [h1]
  -- second poll of the two-step side
  have hdrop2 : (base ++ (a ++ b)).drop (base.length + a.length) = b := by
    rw [← List.length_append, ← List.append_assoc, List.drop_left]
  have hbuf2 :
      ((base ++ (a ++ b)).drop (base.length + a.length)).take POLL_READ_CAP =
        b := by
    rw [hdrop2, List.take_of_length_le (by omega)]
  have hb2 :
      ((base ++ (a ++ b)).drop (base.length + a.length)).take POLL_READ_CAP ≠
        [] := by
    rw [hbuf2]; exact hbne
  have hd2 :
      decodeUtf8
        (((base ++ (a ++ b)).drop (base.length + a.length)).take
          POLL_READ_CAP) = some b' := by
    rw [hbuf2]; exact hdb
  have hz2 : ([] : List Nat) ++ b' = zb ++ [10] := by
    rw [List.nil_append, hzb]
  have hp2 : pollPushed [] b' = (splitNl zb).filter (fun l => l ≠ []) :=
    pollPushed_of_getLast10 hz2
  have hnp2 : pollNewPartial [] b' = [] := pollNewPartial_of_getLast10 hz2
  have h2 := pollLiveFile_spec
    ⟨keepLast MAX_LINES
        (A ++ (splitNl (P ++ za)).filter (fun l => l ≠ [])),
      base.length + a.length, [],
      fls + ((A ++ (splitNl (P ++ za)).filter (fun l => l ≠ [])).length -
        MAX_LINES)⟩
    (base ++ (a ++ b)) b' hb2 hd2
  simp only [hbuf2, hp2, hnp2] at h2
  rw [h2]
  -- the single-write side
  have hdrop3 : (base ++ (a ++ b)).drop base.length = a ++ b :=
    List.drop_left _ _
  have hbuf3 :
      ((base ++ (a ++ b)).drop base.length).take POLL_READ_CAP = a ++ b := by
    rw [hdrop3, List.take_of_length_le (by simp; omega)]
  have hb3 :
      ((base ++ (a ++ b)).drop base.length).take POLL_READ_CAP ≠ [] := by
    rw [hbuf3]
    simp [hane]
  have hd3 :
      decodeUtf8 (((base ++ (a ++ b)).drop base.length).take POLL_READ_CAP) =
        some (a' ++ b') := by
    rw [hbuf3]
    exact decodeUtf8_append hda hdb
  have hz3 : P ++ (a' ++ b') = ((P ++ za) ++ 10 :: zb) ++ [10] := by
    rw [hza, hzb]
    simp
  have hp3 : pollPushed P (a' ++ b') =
      (splitNl (P ++ za)).filter (fun l => l ≠ []) ++
        (splitNl zb).filter (fun l => l ≠ []) := by
    rw [pollPushed_of_getLast10 hz3, splitNl_append_cons10, List.filter_append]
  have hnp3 : pollNewPartial P (a' ++ b') = [] :=
    pollNewPartial_of_getLast10 hz3
  have h3 := pollLiveFile_spec ⟨A, base.length, P, fls⟩ (base ++ (a ++ b))
    (a' ++ b') hb3 hd3
  simp only [hbuf3, hp3, hnp3] at h3
  rw [h3]
  -- compare the two resulting states field by field
  simp only [AppState.mk.injEq]
  refine ⟨?_, ?_, trivial, ?_⟩
  · rw [keepLast_append, List.append_assoc]
  · simp only [List.length_append]
    omega
  · simp only [List.length_append, length_keepLast]
    omega

theorem loadLoop_nil (d : List (List Nat)) (t : Nat) :
    loadLoop [] d t = (d, t) := by
  rw [loadLoop]
  split
  · rfl
  · rename_i line rest heq
    rw [show readLineBounded [] = (none, []) from rfl] at heq
    cases heq

theorem loadLoop_step {input line rest : List Nat}
    (h : readLineBounded input = (some line, rest))
    (d : List (List Nat)) (t : Nat) :
    loadLoop input d t = loadLoop rest (pushCap d line) (t + 1) := by
  rw [loadLoop]
  split
  · rename_i heq
    rw [h] at heq
    cases heq
  · rename_i line' rest' heq
    rw [h] at heq
    injection heq with h1 h2
    injection h1 with h1
    subst h1 h2
    rfl

theorem pushCap_eq {d : List (List Nat)} (l : List Nat)
    (hd : d.length ≤ MAX_LINES) :
    pushCap d l = keepLast MAX_LINES (d ++ [l]) := by
  unfold pushCap keepLast
  simp only [List.length_append, List.length_singleton]
  split
  · congr 1
    omega
  · rw [Nat.sub_eq_zero_of_le (by omega), List.drop_zero]

theorem foldl_pushCap (ls : List (List Nat)) :
    ∀ d : List (List Nat), d.length ≤ MAX_LINES →
      List.foldl pushCap d ls = keepLast MAX_LINES (d ++ ls) := by
  induction ls with
  | nil =>
    intro d hd
    rw [List.foldl_nil, List.append_nil, keepLast_eq_self hd]
  | cons l ls ih =>
    intro d hd
    rw [List.foldl_cons, pushCap_eq l hd,
      ih _ (by rw [length_keepLast]; omega),
      keepLast_append, List.append_assoc, List.singleton_append]

theorem encodeLines_cons (l : List Nat) (L : List (List Nat)) :
    encodeLines (l :: L) = l ++ 10 :: encodeLines L := by
  simp [encodeLines]

theorem loadLoop_encodeLines (L : List (List Nat))
    (hL : ∀ l ∈ L, (10 : Nat) ∉ l ∧ l.length ≤ MAX_LINE_LEN) :
    ∀ (d : List (List Nat)) (t : Nat),
      loadLoop (encodeLines L) d t =
        (List.foldl pushCap d (L.map decodeUtf8Lossy), t + L.length) := by
  induction L with
  | nil =>
    intro d t
    show loadLoop [] d t = _
    rw [loadLoop_nil]
    simp
  | cons l L' ih =>
    intro d t
    rw [encodeLines_cons,
      loadLoop_step (readLineBounded_line (hL l (by simp)).1
        (hL l (by simp)).2) d t,
      ih (fun x hx => hL x (by simp [hx])) _ _]
    simp only [List.map_cons, List.foldl_cons, List.length_cons,
      Prod.mk.injEq]
    exact ⟨trivial, by omega⟩

theorem loadLogs_small_eq (L : List (List Nat))
    (hL : ∀ l ∈ L, (10 : Nat) ∉ l ∧ l.length ≤ MAX_LINE_LEN)
    (hsize : (encodeLines L).length ≤ TAIL_READ_SIZE) :
    (loadLogs (encodeLines L)).1 =
      some (keepLast MAX_LINES (L.map decodeUtf8Lossy)) ∧
    (loadLogs (encodeLines L)).2.2 =
      L.length - (keepLast MAX_LINES (L.map decodeUtf8Lossy)).length + 1 := by
  unfold loadLogs
  rw [if_neg (by omega), loadLoop_encodeLines L hL [] 0,
    foldl_pushCap _ [] (by simp [MAX_LINES])]
  constructor
  · rfl
  · simp

theorem decodeUtf8Lossy_replicate97_nbsp (n : Nat) :
    decodeUtf8Lossy (List.replicate n 97 ++ [194, 160]) =
      List.replicate n 97 ++ [160] := by
  induction n with
  | zero =>
    show decodeUtf8Lossy [194, 160] = [160]
    rw [decodeUtf8Lossy_cons,
      show utf8StepLossy 194 [160] = (160, 1) from rfl]
    simp [decodeUtf8Lossy_nil]
  | succ n ih =>
    rw [List.replicate_succ, List.cons_append,
      decodeUtf8Lossy_cons_lt _ (by norm_num), ih]
    simp

theorem utf8ByteLength_cons (c : Nat) (t : List Nat) :
    utf8ByteLength (c :: t) = utf8Len c + utf8ByteLength t := by
  simp [utf8ByteLength]

theorem utf8ByteLength_replicate97_nbsp (n : Nat) :
    utf8ByteLength (List.replicate n 97 ++ [160]) = n + 2 := by
  induction n with
  | zero => rfl
  | succ n ih =>
    rw [List.replicate_succ, List.cons_append, utf8ByteLength_cons, ih]
    simp [utf8Len]
    omega

theorem byteSlice_replicate97_nbsp (n : Nat) :
    byteSlice (List.replicate n 97 ++ [160]) (n + 1) = none := by
  induction n with
  | zero => rfl
  | succ n ih =>
    rw [List.replicate_succ, List.cons_append]
    show byteSlice (97 :: (List.replicate n 97 ++ [160])) (n + 1 + 1) = none
    rw [byteSlice]
    rw [if_pos (by simp [utf8Len])]
    rw [show n + 1 + 1 - utf8Len 97 = n + 1 from by simp [utf8Len]]
    rw [ih]
    rfl

theorem applyFilter_eq_spec_general (lines : List (List Char))
    (filter : List Char) (m : Nat) :
    applyFilter lines filter m = applyFilterSpec lines filter m := by
  unfold applyFilter applyFilterSpec
  by_cases hq : lowerStr (trimChars filter) = []
  · simp only [hq, if_true, decide_True, Bool.true_or]
    rw [List.filter_true, capIf_eq_keepLast]
  · simp only [hq, if_false, decide_False, Bool.false_or]
    rw [capIf_eq_keepLast]

/-- C10: the claim that `parse_tail_lines` returns without panicking for
every input is false: on a tail buffer of 65535 `a` bytes followed by the
two-byte character 0xC2 0xA0, the decoded fragment is 65537 bytes long and
byte index `MAX_LINE_LEN` falls inside the final two-byte character, so
the slice `&s[..MAX_LINE_LEN]` panics (modelled as `none`). -/
theorem parseTailLines_panic_input :
    parseTailLines (List.replicate 65535 97 ++ [194, 160]) = none := by
  have h10 : (10 : Nat) ∉ List.replicate 65535 (97 : Nat) ++ [194, 160] := by
    intro h
    rcases List.mem_append.mp h with h | h
    · exact absurd (List.eq_of_mem_replicate h) (by decide)
    · simp at h
  have hdrop : dropFirstLineIfNl (List.replicate 65535 97 ++ [194, 160]) =
      List.replicate 65535 97 ++ [194, 160] := by
    unfold dropFirstLineIfNl
    rw [if_neg h10]
  have htrunc :
      truncMark (decodeUtf8Lossy (List.replicate 65535 97 ++ [194, 160])) =
        none := by
    rw [decodeUtf8Lossy_replicate97_nbsp 65535]
    unfold truncMark
    rw [utf8ByteLength_replicate97_nbsp 65535,
      if_pos (by norm_num [MAX_LINE_LEN]),
      show MAX_LINE_LEN = 65535 + 1 from by norm_num [MAX_LINE_LEN],
      byteSlice_replicate97_nbsp 65535]
    rfl
  unfold parseTailLines
  rw [hdrop, splitNl_no10 h10, List.mapM_cons]
  simp only [htrunc]
  rfl

/-- C7: when `read_line_bounded` accumulates `MAX_LINE_LEN` bytes before
seeing a newline, it returns those bytes as one (lossily decoded) line and
silently consumes everything up to and including the next newline (or end
of stream), so the next call resumes at the following source line. -/
theorem readLineBounded_oversized (pre post : List Nat)
    (hlen : pre.length = MAX_LINE_LEN) (h10 : (10 : Nat) ∉ pre) :
    readLineBounded (pre ++ post) =
      (some (decodeUtf8Lossy pre), dropThroughNl post) :=
  readLineBounded_oversized_aux pre post hlen h10

/-- Witness for C7: a 70000-byte line with no newline in its first
`MAX_LINE_LEN` bytes is read as one logical line of length `MAX_LINE_LEN`,
and the next line read is `"b"`, not a mid-line remainder. -/
theorem readLineBounded_oversized_witness :
    (List.replicate 65536 (97 : Nat)).length = MAX_LINE_LEN ∧
    (10 : Nat) ∉ List.replicate 65536 (97 : Nat) ∧
    readLineBounded (List.replicate 65536 97 ++
        (List.replicate 4464 97 ++ 10 :: [98, 10])) =
      (some (List.replicate 65536 97), [98, 10]) ∧
    readLineBounded [98, 10] = (some [98], []) := by
  have hlen : (List.replicate 65536 (97 : Nat)).length = MAX_LINE_LEN := by
    rw [List.length_replicate]
    decide
  have h10 : (10 : Nat) ∉ List.replicate 65536 (97 : Nat) := by
    intro h
    exact absurd (List.eq_of_mem_replicate h) (by decide)
  refine ⟨hlen, h10, ?_, ?_⟩
  · rw [readLineBounded_oversized _ _ hlen h10]
    rw [dropThroughNl_replicate_cons10 (by norm_num) 4464 [98, 10],
      decodeUtf8Lossy_replicate (by norm_num) 65536]
  · rw [show ([98, 10] : List Nat) = [98] ++ 10 :: [] from rfl,
      readLineBounded_line (by decide) (by norm_num [MAX_LINE_LEN])]
    rw [decodeUtf8Lossy_ascii (by decide)]

/-- C8: for a file larger than `TAIL_READ_SIZE`, `load_logs` takes the
tail-scan path and reports `first_line_number = 1` and
`file_offset = file size`, so live tailing resumes from the end of the
file. -/
theorem loadLogs_tail_scan_bookkeeping (content : List Nat)
    (h : content.length > TAIL_READ_SIZE) :
    (loadLogs content).2.1 = content.length ∧ (loadLogs content).2.2 = 1 := by
  unfold loadLogs
  rw [if_pos h]
  exact ⟨rfl, rfl⟩

/-- Witness for C8 at a concrete file one byte over the threshold. -/
theorem loadLogs_tail_scan_bookkeeping_witness :
    (List.replicate (TAIL_READ_SIZE + 1) (0 : Nat)).length > TAIL_READ_SIZE ∧
    (loadLogs (List.replicate (TAIL_READ_SIZE + 1) 0)).2.1 =
      (List.replicate (TAIL_READ_SIZE + 1) (0 : Nat)).length ∧
    (loadLogs (List.replicate (TAIL_READ_SIZE + 1) 0)).2.2 = 1 := by
  have h : (List.replicate (TAIL_READ_SIZE + 1) (0 : Nat)).length >
      TAIL_READ_SIZE := by
    rw [List.length_replicate]
    omega
  exact ⟨h, (loadLogs_tail_scan_bookkeeping _ h).1,
    (loadLogs_tail_scan_bookkeeping _ h).2⟩

/-- C9: a poll that reads zero new bytes (the file has nothing past
`byte_offset`) leaves the whole state unchanged: retained buffer, byte
offset, partial fragment and `file_line_start`. -/
theorem poll_no_new_bytes_noop (st : AppState) (file : List Nat)
    (h : file.drop st.live_file_offset = []) :
    pollLiveFile st file = st :=
  pollLiveFile_noop st file h

/-- Witness for C9 at a concrete state whose offset is at end of file. -/
theorem poll_no_new_bytes_noop_witness :
    ([97, 10] : List Nat).drop 2 = [] ∧
    pollLiveFile ⟨[[97]], 2, [], 1⟩ [97, 10] = ⟨[[97]], 2, [], 1⟩ :=
  ⟨rfl, poll_no_new_bytes_noop ⟨[[97]], 2, [], 1⟩ [97, 10] rfl⟩

/-- C3 (amended): `apply_filter` equals the spec-side filter view — all
entries for a query that trims to empty, otherwise exactly the entries
whose lowercase form contains the lowercase trimmed query, in original
order — except that the cap to the most recent `max_lines` entries applies
to the empty-query branch as well. -/
theorem applyFilter_eq_spec (lines : List (List Char)) (filter : List Char)
    (max_lines : Nat) :
    applyFilter lines filter max_lines =
      applyFilterSpec lines filter max_lines :=
  applyFilter_eq_spec_general lines filter max_lines

/-- C3 counterexample: with six lines, an empty query and a cap of 5,
`apply_filter` does not return every entry — entry `(0, "a")` is dropped
by the cap, refuting the claim that an empty query returns every entry
for every list of lines. -/
theorem applyFilter_empty_query_cap_counterexample :
    applyFilter [['a'], ['b'], ['c'], ['d'], ['e'], ['f']] [] 5 =
      [(1, ['b']), (2, ['c']), (3, ['d']), (4, ['e']), (5, ['f'])] ∧
    (0, ['a']) ∉ applyFilter [['a'], ['b'], ['c'], ['d'], ['e'], ['f']] [] 5 ∧
    applyFilter [['a'], ['b'], ['c'], ['d'], ['e'], ['f']] [] 5 ≠
      ([['a'], ['b'], ['c'], ['d'], ['e'], ['f']] :
        List (List Char)).enum := by
  refine ⟨by decide, by decide, by decide⟩

/-- `poll_live_file` when `File::open` succeeds but the seek to
`live_file_offset` fails: because the failure is discarded by `let _ =`,
the read proceeds from position 0 and the poll still mutates state. -/
theorem pollLiveFileWith_seekFail_spec (st : AppState) (file s : List Nat)
    (hbuf : file.take POLL_READ_CAP ≠ [])
    (hdec : decodeUtf8 (file.take POLL_READ_CAP) = some s) :
    pollLiveFileWith st true false true file =
      { all_lines :=
          keepLast MAX_LINES (st.all_lines ++ pollPushed st.livePartial s)
        live_file_offset := st.live_file_offset +
          (file.take POLL_READ_CAP).length
        livePartial := pollNewPartial st.livePartial s
        file_line_start := st.file_line_start +
          ((st.all_lines ++ pollPushed st.livePartial s).length -
            MAX_LINES) } := by
  unfold pollLiveFileWith pollPushed pollNewPartial
  simp only [Bool.not_true, Bool.not_false, Bool.false_eq_true, ite_false,
    eq_self_iff_true, ite_true, List.drop_zero]
  rw [if_neg hbuf]
  split
  · rename_i heq
    rw [hdec] at heq
    cases heq
  · rename_i s' heq
    rw [hdec] at heq
    have hss : s' = s := by
      injection heq with h3
      exact h3.symm
    subst hss
    by_cases hnl : (st.livePartial ++ s').getLast? = some 10
    · rw [if_pos hnl, if_pos hnl, if_pos hnl]
      by_cases hev :
          (st.all_lines ++
            (splitNl (st.livePartial ++ s')).filter (fun l => l ≠ [])).length >
            MAX_LINES
      · rw [if_pos hev]
        rfl
      · rw [if_neg hev]
        have hle :
            (st.all_lines ++
              (splitNl (st.livePartial ++ s')).filter
                (fun l => l ≠ [])).length ≤ MAX_LINES := by omega
        simp only [AppState.mk.injEq]
        exact ⟨(keepLast_eq_self hle).symm, trivial, trivial, by omega⟩
    · rw [if_neg hnl, if_neg hnl, if_neg hnl]
      by_cases hev :
          (st.all_lines ++ (splitNl (st.livePartial ++ s')).dropLast).length >
            MAX_LINES
      · rw [if_pos hev]
        rfl
      · rw [if_neg hev]
        have hle :
            (st.all_lines ++
              (splitNl (st.livePartial ++ s')).dropLast).length ≤
              MAX_LINES := by omega
        simp only [AppState.mk.injEq]
        exact ⟨(keepLast_eq_self hle).symm, trivial, trivial, by omega⟩

/-- C4 (amended): a poll is skipped with the state exactly unchanged when
opening the file fails, when reading fails, or when the new bytes are not
valid UTF-8.  (A seek failure, by contrast, is ignored by the code; see
the counterexample.) -/
theorem poll_failure_atomicity :
    (∀ (st : AppState) (so ro : Bool) (file : List Nat),
      pollLiveFileWith st false so ro file = st) ∧
    (∀ (st : AppState) (so : Bool) (file : List Nat),
      pollLiveFileWith st true so false file = st) ∧
    (∀ (st : AppState) (file : List Nat),
      decodeUtf8 ((file.drop st.live_file_offset).take POLL_READ_CAP) =
        none →
      pollLiveFile st file = st) := by
  refine ⟨?_, ?_, ?_⟩
  · intro st so ro file
    unfold pollLiveFileWith
    simp
  · intro st so file
    unfold pollLiveFileWith
    simp
  · intro st file h
    unfold pollLiveFile pollLiveFileWith
    by_cases hbuf : (file.drop st.live_file_offset).take POLL_READ_CAP = []
    · simp [hbuf]
    · simp [hbuf, h]

/-- Witness for C4 at concrete states: a failed open, a failed read, and
an invalid-UTF-8 read each leave the state unchanged. -/
theorem poll_failure_atomicity_witness :
    pollLiveFileWith ⟨[[97]], 2, [], 1⟩ false true true [97, 10] =
      ⟨[[97]], 2, [], 1⟩ ∧
    pollLiveFileWith ⟨[[97]], 2, [], 1⟩ true true false [97, 10] =
      ⟨[[97]], 2, [], 1⟩ ∧
    decodeUtf8 ((([255] : List Nat).drop 0).take POLL_READ_CAP) = none ∧
    pollLiveFile ⟨[], 0, [], 1⟩ [255] = ⟨[], 0, [], 1⟩ := by
  have hdec : decodeUtf8 ((([255] : List Nat).drop 0).take POLL_READ_CAP) =
      none := by
    rw [List.drop_zero, List.take_of_length_le (by norm_num [POLL_READ_CAP])]
    exact decodeUtf8_cons_none (by decide)
  exact ⟨poll_failure_atomicity.1 _ _ _ _, poll_failure_atomicity.2.1 _ _ _,
    hdec, poll_failure_atomicity.2.2 _ _ hdec⟩

/-- C4 counterexample: the claim also demands that a failed seek skips the
poll, but the code ignores the seek result (`let _ = file.seek(...)`): on
a seek failure the read proceeds from position 0, re-reads `"a\n"`, and
the state changes — the buffer gains a duplicate line and the offset
advances by the re-read bytes. -/
theorem poll_seek_failure_counterexample :
    pollLiveFileWith ⟨[[97]], 2, [], 1⟩ true false true [97, 10] =
      ⟨[[97], [97]], 4, [], 1⟩ ∧
    pollLiveFileWith ⟨[[97]], 2, [], 1⟩ true false true [97, 10] ≠
      ⟨[[97]], 2, [], 1⟩ := by
  have hbuf : ([97, 10] : List Nat).take POLL_READ_CAP = [97, 10] :=
    List.take_of_length_le (by norm_num [POLL_READ_CAP])
  have h1 : pollLiveFileWith ⟨[[97]], 2, [], 1⟩ true false true [97, 10] =
      ⟨[[97], [97]], 4, [], 1⟩ := by
    rw [pollLiveFileWith_seekFail_spec ⟨[[97]], 2, [], 1⟩ [97, 10] [97, 10]
      (by rw [hbuf]; decide) (by rw [hbuf]; exact decodeUtf8_ascii (by decide))]
    rw [hbuf]
    decide
  exact ⟨h1, by rw [h1]; decide⟩

/-- C6 (amended): when the concatenation of the carried partial fragment
and the decoded new text ends with a newline, the poll appends no empty
line: every element of the resulting buffer was already present or is
non-empty.  (When the concatenation is not newline-terminated, empty
complete fragments are appended; see the counterexample.) -/
theorem poll_newline_terminated_no_empty (st : AppState) (file s : List Nat)
    (hdec : decodeUtf8 ((file.drop st.live_file_offset).take POLL_READ_CAP) =
      some s)
    (hnl : (st.livePartial ++ s).getLast? = some 10) :
    ∀ l ∈ (pollLiveFile st file).all_lines, l ∈ st.all_lines ∨ l ≠ [] := by
  by_cases hbuf : (file.drop st.live_file_offset).take POLL_READ_CAP = []
  · have hdrop : file.drop st.live_file_offset = [] := by
      rcases List.take_eq_nil_iff.mp hbuf with h | h
      · exact absurd h (by simp [POLL_READ_CAP])
      · exact h
    rw [pollLiveFile_noop st file hdrop]
    exact fun l hl => Or.inl hl
  · rw [pollLiveFile_spec st file s hbuf hdec]
    intro l hl
    have hl2 : l ∈ st.all_lines ++ pollPushed st.livePartial s :=
      List.drop_subset _ _ hl
    rcases List.mem_append.mp hl2 with h | h
    · exact Or.inl h
    · right
      unfold pollPushed at h
      rw [if_pos hnl] at h
      have := (List.mem_filter.mp h).2
      simpa using this

/-- Witness for C6 at a concrete poll of `"a\n"`. -/
theorem poll_newline_terminated_no_empty_witness :
    decodeUtf8 ((([97, 10] : List Nat).drop 0).take POLL_READ_CAP) =
      some [97, 10] ∧
    (([] : List Nat) ++ [97, 10]).getLast? = some 10 ∧
    ∀ l ∈ (pollLiveFile ⟨[], 0, [], 1⟩ [97, 10]).all_lines,
      l ∈ ([] : List (List Nat)) ∨ l ≠ [] := by
  have hdec : decodeUtf8 ((([97, 10] : List Nat).drop 0).take POLL_READ_CAP) =
      some [97, 10] := by
    rw [List.drop_zero, List.take_of_length_le (by norm_num [POLL_READ_CAP])]
    exact decodeUtf8_ascii (by decide)
  exact ⟨hdec, by decide,
    poll_newline_terminated_no_empty ⟨[], 0, [], 1⟩ [97, 10] [97, 10] hdec
      (by decide)⟩

/-- C6 counterexample: polling `"a\n\nb"` (not newline-terminated) pushes
the fragments before the trailing one — including the empty fragment
between the two newlines — so the live poller does append an empty string
to the retained buffer, refuting the claim. -/
theorem poll_appends_empty_counterexample :
    (pollLiveFile ⟨[], 0, [], 1⟩ [97, 10, 10, 98]).all_lines = [[97], []] ∧
    [] ∈ (pollLiveFile ⟨[], 0, [], 1⟩ [97, 10, 10, 98]).all_lines := by
  have hbuf : (([97, 10, 10, 98] : List Nat).drop 0).take POLL_READ_CAP =
      [97, 10, 10, 98] := by
    rw [List.drop_zero]
    exact List.take_of_length_le (by norm_num [POLL_READ_CAP])
  have hdec :
      decodeUtf8 ((([97, 10, 10, 98] : List Nat).drop 0).take POLL_READ_CAP) =
        some [97, 10, 10, 98] := by
    rw [hbuf]
    exact decodeUtf8_ascii (by decide)
  have h1 := pollLiveFile_spec ⟨[], 0, [], 1⟩ [97, 10, 10, 98] [97, 10, 10, 98]
    (by rw [hbuf]; decide) hdec
  rw [h1]
  refine ⟨by decide, by decide⟩

/-- Witness for C5: two newline-terminated writes `"a\n"` and `"b\n"`
polled separately give the same state as the single write `"a\nb\n"`. -/
theorem poll_reassembly_two_writes_witness :
    decodeUtf8 [97, 10] = some [97, 10] ∧
    decodeUtf8 [98, 10] = some [98, 10] ∧
    ([97, 10] : List Nat).length + ([98, 10] : List Nat).length ≤
      POLL_READ_CAP ∧
    pollLiveFile (pollLiveFile ⟨[], 0, [], 1⟩ ([] ++ [97, 10]))
        ([] ++ ([97, 10] ++ [98, 10])) =
      pollLiveFile ⟨[], 0, [], 1⟩ ([] ++ ([97, 10] ++ [98, 10])) := by
  have hda : decodeUtf8 [97, 10] = some [97, 10] :=
    decodeUtf8_ascii (by decide)
  have hdb : decodeUtf8 [98, 10] = some [98, 10] :=
    decodeUtf8_ascii (by decide)
  exact ⟨hda, hdb, by norm_num [POLL_READ_CAP],
    poll_reassembly_two_writes ⟨[], 0, [], 1⟩ [] [97, 10] [98, 10]
      [97, 10] [98, 10] rfl hda hdb (by decide) (by decide)
      (by norm_num [POLL_READ_CAP])⟩

/-- C5 counterexample: writing `"a\n\n"` (3 bytes) and then `"b"` (1 byte),
polling after each, leaves the buffer `["a"]` — the blank line is dropped
in the newline-terminated branch — while the single write `"a\n\nb"`
followed by one poll leaves `["a", ""]`, because the non-terminated branch
pushes every complete fragment including the empty one.  Both writes are
far below `POLL_READ_CAP`, refuting the claim as stated. -/
theorem poll_reassembly_counterexample :
    (pollLiveFile (pollLiveFile ⟨[], 0, [], 1⟩ [97, 10, 10])
        [97, 10, 10, 98]).all_lines = [[97]] ∧
    (pollLiveFile ⟨[], 0, [], 1⟩ [97, 10, 10, 98]).all_lines = [[97], []] ∧
    pollLiveFile (pollLiveFile ⟨[], 0, [], 1⟩ [97, 10, 10]) [97, 10, 10, 98] ≠
      pollLiveFile ⟨[], 0, [], 1⟩ [97, 10, 10, 98] := by
  have e1 : pollLiveFile ⟨[], 0, [], 1⟩ [97, 10, 10] = ⟨[[97]], 3, [], 1⟩ := by
    have hbuf : (([97, 10, 10] : List Nat).drop 0).take POLL_READ_CAP =
        [97, 10, 10] := by
      rw [List.drop_zero]
      exact List.take_of_length_le (by norm_num [POLL_READ_CAP])
    rw [pollLiveFile_spec ⟨[], 0, [], 1⟩ [97, 10, 10] [97, 10, 10]
      (by rw [hbuf]; decide)
      (by rw [hbuf]; exact decodeUtf8_ascii (by decide)), hbuf]
    decide
  have e2 : pollLiveFile ⟨[[97]], 3, [], 1⟩ [97, 10, 10, 98] =
      ⟨[[97]], 4, [98], 1⟩ := by
    have hbuf : (([97, 10, 10, 98] : List Nat).drop 3).take POLL_READ_CAP =
        [98] := by
      rw [show ([97, 10, 10, 98] : List Nat).drop 3 = [98] from rfl]
      exact List.take_of_length_le (by norm_num [POLL_READ_CAP])
    rw [pollLiveFile_spec ⟨[[97]], 3, [], 1⟩ [97, 10, 10, 98] [98]
      (by rw [hbuf]; decide)
      (by rw [hbuf]; exact decodeUtf8_ascii (by decide)), hbuf]
    decide
  have e3 : pollLiveFile ⟨[], 0, [], 1⟩ [97, 10, 10, 98] =
      ⟨[[97], []], 4, [98], 1⟩ := by
    have hbuf : (([97, 10, 10, 98] : List Nat).drop 0).take POLL_READ_CAP =
        [97, 10, 10, 98] := by
      rw [List.drop_zero]
      exact List.take_of_length_le (by norm_num [POLL_READ_CAP])
    rw [pollLiveFile_spec ⟨[], 0, [], 1⟩ [97, 10, 10, 98] [97, 10, 10, 98]
      (by rw [hbuf]; decide)
      (by rw [hbuf]; exact decodeUtf8_ascii (by decide)), hbuf]
    decide
  rw [e1, e2, e3]
  exact ⟨rfl, rfl, by decide⟩

theorem appNew_establishes_inv (full lines : List (List Nat)) (off fls : Nat)
    (h1 : 1 ≤ fls) (h2 : lines = full.drop (fls - 1))
    (h3 : full.length = (fls - 1) + lines.length) :
    Inv full (appNew lines off fls) := by
  unfold appNew Inv
  by_cases hev : lines.length > MAX_LINES
  · rw [if_pos hev]
    refine ⟨?_, ?_, ?_, ?_⟩
    · show (1 : Nat) ≤ fls + (lines.length - MAX_LINES)
      omega
    · show lines.drop (lines.length - MAX_LINES) =
        full.drop (fls + (lines.length - MAX_LINES) - 1)
      rw [h2, List.drop_drop]
      congr 1
      omega
    · show full.length = fls + (lines.length - MAX_LINES) - 1 +
        (lines.drop (lines.length - MAX_LINES)).length
      rw [List.length_drop]
      omega
    · show (lines.drop (lines.length - MAX_LINES)).length ≤ MAX_LINES
      rw [List.length_drop]
      omega
  · rw [if_neg hev]
    exact ⟨h1, h2, h3, by show lines.length ≤ MAX_LINES; omega⟩

/-- C2 (amended): after initial construction and after every live poll the
retained buffer holds at most `MAX_LINES` entries and every eviction of
`k` oldest entries advances `file_line_start` by exactly `k`; and
`file_line_start + i` is the true 1-based source line number of the
element at index `i` — the latter provided the newly decoded text
completes no blank line (the live poller drops blank lines, so the
correspondence breaks past a dropped blank; see the counterexample).
`Inv full st` states the correspondence against the ghost list `full` of
all complete source lines. -/
theorem retained_buffer_invariant :
    (∀ (full lines : List (List Nat)) (off fls : Nat),
      1 ≤ fls →
      lines = full.drop (fls - 1) →
      full.length = (fls - 1) + lines.length →
      Inv full (appNew lines off fls)) ∧
    (∀ (full : List (List Nat)) (st : AppState) (file s : List Nat),
      Inv full st →
      decodeUtf8 ((file.drop st.live_file_offset).take POLL_READ_CAP) =
        some s →
      (10 : Nat) ∉ st.livePartial →
      [] ∉ (splitNl (st.livePartial ++ s)).dropLast →
      Inv (full ++ (splitNl (st.livePartial ++ s)).dropLast)
        (pollLiveFile st file) ∧
      (pollLiveFile st file).file_line_start =
        st.file_line_start +
          (st.all_lines.length +
            ((splitNl (st.livePartial ++ s)).dropLast).length -
            (pollLiveFile st file).all_lines.length)) :=
  ⟨appNew_establishes_inv,
    fun full st file s hinv hdec hP hnb =>
      pollLiveFile_inv full st file s hinv hdec hP hnb⟩

/-- Witness for C2: construction from a one-line cold load of `"a\n"` and
one live poll that appends `"b\n"`. -/
theorem retained_buffer_invariant_witness :
    Inv [[97]] (appNew [[97]] 2 1) ∧
    Inv ([[97]] ++ (splitNl (([] : List Nat) ++ [98, 10])).dropLast)
      (pollLiveFile ⟨[[97]], 2, [], 1⟩ [97, 10, 98, 10]) ∧
    (pollLiveFile ⟨[[97]], 2, [], 1⟩ [97, 10, 98, 10]).file_line_start =
      1 + (1 + ((splitNl (([] : List Nat) ++ [98, 10])).dropLast).length -
        (pollLiveFile ⟨[[97]], 2, [], 1⟩ [97, 10, 98, 10]).all_lines.length) := by
  have hdec :
      decodeUtf8 ((([97, 10, 98, 10] : List Nat).drop 2).take POLL_READ_CAP) =
        some [98, 10] := by
    rw [show ([97, 10, 98, 10] : List Nat).drop 2 = [98, 10] from rfl,
      List.take_of_length_le (by norm_num [POLL_READ_CAP])]
    exact decodeUtf8_ascii (by decide)
  have hinv : Inv [[97]] ⟨[[97]], 2, [], 1⟩ := by
    unfold Inv
    exact ⟨by decide, by decide, by decide, by decide⟩
  have h2 := retained_buffer_invariant.2 [[97]] ⟨[[97]], 2, [], 1⟩
    [97, 10, 98, 10] [98, 10] hinv hdec (by decide) (by decide)
  exact ⟨retained_buffer_invariant.1 [[97]] [[97]] 2 1 (by decide) (by decide)
    (by decide), h2.1, h2.2⟩

/-- C2 counterexample: cold load of `"a\n"`, then a live poll that appends
`"\nb\n"`.  The blank source line is dropped, yet `file_line_start` stays
1, so the element at index 1 is `"b"` while source line
`file_line_start + 1 = 2` is the blank line — `file_line_start + i` is not
the true source line number, refuting the claim as stated. -/
theorem retained_buffer_numbering_counterexample :
    (pollLiveFile (appNew [[97]] 2 1) [97, 10, 10, 98, 10]).all_lines =
      [[97], [98]] ∧
    (pollLiveFile (appNew [[97]] 2 1) [97, 10, 10, 98, 10]).file_line_start =
      1 ∧
    trueCompleteLines [97, 10, 10, 98, 10] = [[97], [], [98]] ∧
    ([[97], [], [98]] : List (List Nat)).get? 1 = some [] ∧
    ([] : List Nat) ≠ [98] := by
  have happ : appNew [[97]] 2 1 = ⟨[[97]], 2, [], 1⟩ := by
    unfold appNew
    rw [if_neg (by decide)]
  have hdec :
      decodeUtf8
        ((([97, 10, 10, 98, 10] : List Nat).drop 2).take POLL_READ_CAP) =
        some [10, 98, 10] := by
    rw [show ([97, 10, 10, 98, 10] : List Nat).drop 2 = [10, 98, 10] from rfl,
      List.take_of_length_le (by norm_num [POLL_READ_CAP])]
    exact decodeUtf8_ascii (by decide)
  have hpoll : pollLiveFile (appNew [[97]] 2 1) [97, 10, 10, 98, 10] =
      ⟨[[97], [98]], 5, [], 1⟩ := by
    rw [happ]
    have hbuf : (([97, 10, 10, 98, 10] : List Nat).drop 2).take
        POLL_READ_CAP = [10, 98, 10] := by
      rw [show ([97, 10, 10, 98, 10] : List Nat).drop 2 = [10, 98, 10] from
        rfl]
      exact List.take_of_length_le (by norm_num [POLL_READ_CAP])
    rw [pollLiveFile_spec ⟨[[97]], 2, [], 1⟩ [97, 10, 10, 98, 10] [10, 98, 10]
      (by rw [hbuf]; decide) hdec, hbuf]
    decide
  have htrue : trueCompleteLines [97, 10, 10, 98, 10] = [[97], [], [98]] := by
    unfold trueCompleteLines
    rw [decodeUtf8Lossy_ascii (by decide)]
    decide
  rw [hpoll]
  exact ⟨rfl, rfl, htrue, by decide, by decide⟩

/-- C1 (amended): for a file whose size is at most `TAIL_READ_SIZE`
(the streaming path) and whose lines are each at most `MAX_LINE_LEN`
bytes: with at most `MAX_LINES` lines the loaded buffer is exactly the
file's (lossily decoded) lines with `first_line_number = 1`; with
`N > MAX_LINES` lines it is the last `MAX_LINES` lines with
`first_line_number = N - MAX_LINES + 1`.  (Oversized lines are truncated
and very large files take the tail-scan path; see the counterexample.) -/
theorem loadLogs_streams_last_lines (L : List (List Nat))
    (hL : ∀ l ∈ L, (10 : Nat) ∉ l ∧ l.length ≤ MAX_LINE_LEN)
    (hsize : (encodeLines L).length ≤ TAIL_READ_SIZE) :
    (L.length ≤ MAX_LINES →
      (loadLogs (encodeLines L)).1 = some (L.map decodeUtf8Lossy) ∧
      (loadLogs (encodeLines L)).2.2 = 1) ∧
    (MAX_LINES < L.length →
      (loadLogs (encodeLines L)).1 =
        some ((L.drop (L.length - MAX_LINES)).map decodeUtf8Lossy) ∧
      (loadLogs (encodeLines L)).2.2 = L.length - MAX_LINES + 1) := by
  obtain ⟨hk, hf⟩ := loadLogs_small_eq L hL hsize
  constructor
  · intro hle
    have h1 : keepLast MAX_LINES (L.map decodeUtf8Lossy) =
        L.map decodeUtf8Lossy :=
      keepLast_eq_self (by rw [List.length_map]; exact hle)
    rw [h1] at hk hf
    refine ⟨hk, ?_⟩
    rw [hf, List.length_map]
    omega
  · intro hgt
    have h1 : keepLast MAX_LINES (L.map decodeUtf8Lossy) =
        (L.drop (L.length - MAX_LINES)).map decodeUtf8Lossy := by
      unfold keepLast
      rw [List.length_map, List.map_drop]
    rw [h1] at hk hf
    refine ⟨hk, ?_⟩
    rw [hf, List.length_map, List.length_drop]
    omega

/-- Witness for C1: the 200-line scenario — lines `"000".."199"`, three
ASCII digits each; the loaded buffer is the last 150 lines and
`first_line_number = 51`. -/
theorem loadLogs_streams_last_lines_witness :
    (∀ l ∈ (List.range 200).map
        (fun i => [48 + i / 100, 48 + i / 10 % 10, 48 + i % 10]),
      (10 : Nat) ∉ l ∧ l.length ≤ MAX_LINE_LEN) ∧
    (encodeLines ((List.range 200).map
        (fun i => [48 + i / 100, 48 + i / 10 % 10, 48 + i % 10]))).length ≤
      TAIL_READ_SIZE ∧
    (loadLogs (encodeLines ((List.range 200).map
        (fun i => [48 + i / 100, 48 + i / 10 % 10, 48 + i % 10])))).1 =
      some ((((List.range 200).map
        (fun i => [48 + i / 100, 48 + i / 10 % 10, 48 + i % 10])).drop
          50).map decodeUtf8Lossy) ∧
    (loadLogs (encodeLines ((List.range 200).map
        (fun i => [48 + i / 100, 48 + i / 10 % 10, 48 + i % 10])))).2.2 =
      51 := by
  have hL : ∀ l ∈ (List.range 200).map
      (fun i => [48 + i / 100, 48 + i / 10 % 10, 48 + i % 10]),
      (10 : Nat) ∉ l ∧ l.length ≤ MAX_LINE_LEN := by decide
  have hsize : (encodeLines ((List.range 200).map
      (fun i => [48 + i / 100, 48 + i / 10 % 10, 48 + i % 10]))).length ≤
      TAIL_READ_SIZE := by decide
  have hlen : ((List.range 200).map
      (fun i => [48 + i / 100, 48 + i / 10 % 10, 48 + i % 10])).length =
      200 := by
    rw [List.length_map, List.length_range]
  have hmain := (loadLogs_streams_last_lines _ hL hsize).2
    (by rw [hlen]; norm_num [MAX_LINES])
  have h50 : ((List.range 200).map
      (fun i => [48 + i / 100, 48 + i / 10 % 10, 48 + i % 10])).length -
      MAX_LINES = 50 := by
    rw [hlen]
    norm_num [MAX_LINES]
  rw [h50] at hmain
  refine ⟨hL, hsize, hmain.1, ?_⟩
  rw [hmain.2]

/-- C1 counterexample: a one-line file whose line is `MAX_LINE_LEN + 1`
bytes of `a` (so 1 line, far fewer than `MAX_LINES`): the loaded buffer
holds the line truncated to `MAX_LINE_LEN` bytes, not the file's line, so
"the loaded buffer equals the file's lines exactly" fails for a file read
by `load_logs`. -/
theorem loadLogs_oversized_line_counterexample :
    (loadLogs (encodeLines [List.replicate (MAX_LINE_LEN + 1) 97])).1 =
      some [List.replicate MAX_LINE_LEN 97] ∧
    decodeUtf8Lossy (List.replicate (MAX_LINE_LEN + 1) 97) =
      List.replicate (MAX_LINE_LEN + 1) 97 ∧
    [List.replicate MAX_LINE_LEN (97 : Nat)] ≠
      [List.replicate (MAX_LINE_LEN + 1) 97] := by
  have henc : encodeLines [List.replicate (MAX_LINE_LEN + 1) 97] =
      List.replicate MAX_LINE_LEN 97 ++ (97 :: [10]) := by
    unfold encodeLines
    rw [List.map_cons, List.map_nil, List.flatten_cons, List.flatten_nil,
      List.append_nil, List.replicate_succ', List.append_assoc]
    rfl
  have h10 : (10 : Nat) ∉ List.replicate MAX_LINE_LEN (97 : Nat) := by
    intro h
    exact absurd (List.eq_of_mem_replicate h) (by decide)
  have hread : readLineBounded (encodeLines [List.replicate
      (MAX_LINE_LEN + 1) 97]) = (some (List.replicate MAX_LINE_LEN 97), []) := by
    rw [henc, readLineBounded_oversized_aux _ _ (List.length_replicate _ _) h10]
    rw [decodeUtf8Lossy_replicate (by norm_num) MAX_LINE_LEN]
    rw [show dropThroughNl (97 :: [10]) = [] from by simp [dropThroughNl]]
  have hlen : (encodeLines [List.replicate (MAX_LINE_LEN + 1) 97]).length =
      MAX_LINE_LEN + 2 := by
    rw [henc, List.length_append, List.length_replicate]
    decide
  refine ⟨?_, decodeUtf8Lossy_replicate (by norm_num) (MAX_LINE_LEN + 1), ?_⟩
  · unfold loadLogs
    rw [if_neg (by rw [hlen]; norm_num [MAX_LINE_LEN, TAIL_READ_SIZE])]
    rw [loadLoop_step hread, loadLoop_nil]
    show some (pushCap [] (List.replicate MAX_LINE_LEN 97)) = _
    rw [show pushCap [] (List.replicate MAX_LINE_LEN 97) =
      [List.replicate MAX_LINE_LEN 97] from by
        unfold pushCap
        rw [List.nil_append, if_neg (by rw [List.length_singleton]; decide)]]
  · intro h
    have h2 := congrArg
      (fun x : List (List Nat) => (x.headD []).length) h
    simp only [List.headD_cons, List.length_replicate] at h2
    omega

end Ratlog
